import Mathlib

/-!
Verification of the employee scheduling system (three-phase assignment
engine): a shallow embedding of `employee.py` and `scheduler.py`, followed
by theorems settling the specification claims.

Python dictionaries with `int` keys (`Employee.preferences`,
`Employee.schedule`) are embedded as insertion-ordered association lists
`List (Int × Shift)`; Python `int` is `Int`.  The scheduler's nested
`defaultdict` grid `Dict[int, Dict[Shift, List[str]]]` is embedded as a
total function `Int → Shift → List String` that yields `[]` for untouched
cells (exactly the `defaultdict` semantics).  The scheduler's in-place
mutation of `Employee` objects held in `self.employees` is embedded by
positional update (`List.set`) of the employee list.
-/

/-- `Shift` enumeration from `employee.py` (`class Shift(Enum)`), in its
fixed enumeration order Morning, Afternoon, Evening. -/
inductive Shift where
  | MORNING
  | AFTERNOON
  | EVENING
deriving DecidableEq

/-- `MIN_EMPLOYEES_PER_SHIFT = 2` from `employee.py`. -/
def MIN_EMPLOYEES_PER_SHIFT : Nat := 2

/-- `MAX_EMPLOYEES_PER_SHIFT = 8` from `employee.py`. -/
def MAX_EMPLOYEES_PER_SHIFT : Nat := 8

/-- `MAX_WORK_DAYS_PER_WEEK = 5` from `employee.py`. -/
def MAX_WORK_DAYS_PER_WEEK : Nat := 5

/-- Lookup in an insertion-ordered association list: the embedding of
`dict.get(day)` / `day in dict` for the `int → Shift` dictionaries. -/
def findShift : List (Int × Shift) → Int → Option Shift
  | [], _ => none
  | (k, v) :: t, d => if k = d then some v else findShift t d

/-- Key update in an insertion-ordered association list: the embedding of
`dict[day] = shift` (Python 3.7+ keeps the original position of an
existing key and appends a fresh key at the end). -/
def insertShift : List (Int × Shift) → Int → Shift → List (Int × Shift)
  | [], d, s => [(d, s)]
  | (k, v) :: t, d, s => if k = d then (k, s) :: t else (k, v) :: insertShift t d s

/-- The `Employee` class of `employee.py`: name, preference dictionary,
schedule dictionary (both weekday → shift) and the `days_worked` counter. -/
structure Employee where
  name : String
  preferences : List (Int × Shift)
  schedule : List (Int × Shift)
  days_worked : Nat
deriving DecidableEq

/-- `Employee.__init__(name)`: empty preferences, empty schedule,
`days_worked = 0`. -/
def mkEmployee (n : String) : Employee :=
  { name := n, preferences := [], schedule := [], days_worked := 0 }

/-- `Employee.get_preference`. -/
def Employee.get_preference (e : Employee) (d : Int) : Option Shift :=
  findShift e.preferences d

/-- `Employee.can_work_day`: false when `day in self.schedule`, otherwise
`days_worked < MAX_WORK_DAYS_PER_WEEK`. -/
def Employee.can_work_day (e : Employee) (d : Int) : Bool :=
  (findShift e.schedule d).isNone && decide (e.days_worked < MAX_WORK_DAYS_PER_WEEK)

/-- `Employee.assign_shift`: returns the updated employee together with the
Python method's boolean result (the Python method mutates `self`). -/
def Employee.assign_shift (e : Employee) (d : Int) (s : Shift) : Employee × Bool :=
  if e.can_work_day d then
    ({ e with schedule := insertShift e.schedule d s, days_worked := e.days_worked + 1 }, true)
  else
    (e, false)

/-- `Employee.get_assigned_shift`. -/
def Employee.get_assigned_shift (e : Employee) (d : Int) : Option Shift :=
  findShift e.schedule d

/-- `Employee.reset_schedule`: `self.schedule = {}`, `self.days_worked = 0`. -/
def Employee.reset_schedule (e : Employee) : Employee :=
  { e with schedule := [], days_worked := 0 }

/-- The diagnostics the engine reports through its warning messages.
`unresolved` embeds the warning printed by `Scheduler._resolve_conflict`
when both strategies fail; that message carries only the employee's name.
`understaffed` embeds the warning printed by
`Scheduler._ensure_minimum_staffing`, which carries the day, the shift and
the remaining shortfall `needed - assigned` (the printed text also shows
the resulting headcount, derivable as the cell size). -/
inductive Diag where
  | unresolved (name : String)
  | understaffed (day : Int) (shift : Shift) (shortfall : Nat)
deriving DecidableEq

namespace Scheduler

/-- `self.days = list(range(7))` from `Scheduler.__init__`. -/
def days : List Int := [0, 1, 2, 3, 4, 5, 6]

/-- `self.shifts = [Shift.MORNING, Shift.AFTERNOON, Shift.EVENING]`. -/
def shifts : List Shift := [Shift.MORNING, Shift.AFTERNOON, Shift.EVENING]

/-- The scheduler's mutable state: `self.employees` and the roster grid
`self.schedule` (a `defaultdict` of `defaultdict(list)`, embedded as a
total function that is `[]` on untouched cells). -/
structure St where
  employees : List Employee
  schedule : Int → Shift → List String

/-- Appending a name to one grid cell: `self.schedule[day][shift].append(name)`. -/
def gridAppend (g : Int → Shift → List String) (d : Int) (s : Shift) (n : String) :
    Int → Shift → List String :=
  fun d' s' => if d' = d ∧ s' = s then g d' s' ++ [n] else g d' s'

/-- `Scheduler._can_assign(employee, day, shift)`; the employee is given by
its position in `self.employees`. -/
def can_assign (st : St) (i : Nat) (d : Int) (s : Shift) : Bool :=
  match st.employees[i]? with
  | none => false
  | some e => e.can_work_day d && decide ((st.schedule d s).length < MAX_EMPLOYEES_PER_SHIFT)

/-- `Scheduler._assign(employee, day, shift)`: calls
`employee.assign_shift` and, on success, appends the employee's name to
the grid cell.  In-place mutation of the employee object is embedded by
`List.set` at the employee's position. -/
def assign (st : St) (i : Nat) (d : Int) (s : Shift) : St :=
  match st.employees[i]? with
  | none => st
  | some e =>
    let r := e.assign_shift d s
    if r.2 then
      { employees := st.employees.set i r.1, schedule := gridAppend st.schedule d s e.name }
    else st

/-- Strategy 2 of `Scheduler._resolve_conflict`: walk the alternative
days; on each, try the preferred shift first, then scan `self.shifts`
for any assignable shift. -/
def resolve_days (st : St) (i : Nat) (pd : Int) (ps : Shift) : List Int → Option St
  | [] => none
  | od :: rest =>
    if od = pd then resolve_days st i pd ps rest
    else if can_assign st i od ps then some (assign st i od ps)
    else
      match shifts.find? (fun sh => can_assign st i od sh) with
      | some sh => some (assign st i od sh)
      | none => resolve_days st i pd ps rest

/-- `Scheduler._resolve_conflict`: Strategy 1 (alternative shifts on the
same day, skipping the preferred one), then Strategy 2 (other days); when
both fail, the warning naming the employee is emitted and nothing is
assigned. -/
def resolve_conflict (st : St) (i : Nat) (pd : Int) (ps : Shift) : St × List Diag :=
  match shifts.find? (fun sh => decide (sh ≠ ps) && can_assign st i pd sh) with
  | some sh => (assign st i pd sh, [])
  | none =>
    match resolve_days st i pd ps days with
    | some st' => (st', [])
    | none =>
      (st, match st.employees[i]? with
        | some e => [Diag.unresolved e.name]
        | none => [])

/-- The inner day loop of `Scheduler._assign_preferred_shifts` for the
employee at position `i`: breaks as soon as `days_worked` has reached
`MAX_WORK_DAYS_PER_WEEK`, skips days without a preference, otherwise
assigns directly or falls back to conflict resolution. -/
def assign_days (st : St) (i : Nat) : List Int → St × List Diag
  | [] => (st, [])
  | d :: rest =>
    match st.employees[i]? with
    | none => (st, [])
    | some e =>
      if MAX_WORK_DAYS_PER_WEEK ≤ e.days_worked then (st, [])
      else
        match e.get_preference d with
        | none => assign_days st i rest
        | some ps =>
          let r :=
            if can_assign st i d ps then (assign st i d ps, ([] : List Diag))
            else resolve_conflict st i d ps
          let r' := assign_days r.1 i rest
          (r'.1, r.2 ++ r'.2)

/-- The outer employee loop of `Scheduler._assign_preferred_shifts`,
iterating employee positions in registration order. -/
def assign_preferred_aux (st : St) : List Nat → St × List Diag
  | [] => (st, [])
  | i :: rest =>
    let r := assign_days st i days
    let r' := assign_preferred_aux r.1 rest
    (r'.1, r.2 ++ r'.2)

/-- `Scheduler._assign_preferred_shifts` (Phase 2). -/
def assign_preferred_shifts (st : St) : St × List Diag :=
  assign_preferred_aux st (List.range st.employees.length)

/-- `Scheduler._get_available_employees(day)`: positions of the employees
for whom `can_work_day(day)` holds, in registration order. -/
def get_available_employees (st : St) (d : Int) : List Nat :=
  (List.range st.employees.length).filter (fun i =>
    match st.employees[i]? with
    | some e => e.can_work_day d
    | none => false)

/-- The candidate loop inside `Scheduler._ensure_minimum_staffing`: walk
the shuffled candidates, breaking once `assigned >= needed`, assigning
each candidate that passes `_can_assign`; returns the final state and the
number assigned. -/
def fill_loop (d : Int) (s : Shift) (needed : Nat) :
    St → List Nat → Nat → St × Nat
  | st, [], assigned => (st, assigned)
  | st, i :: rest, assigned =>
    if needed ≤ assigned then (st, assigned)
    else if can_assign st i d s then
      fill_loop d s needed (assign st i d s) rest (assigned + 1)
    else fill_loop d s needed st rest assigned

/-- One (day, shift) cell of `Scheduler._ensure_minimum_staffing`: when
the cell is below minimum, shuffle the available employees with the
injected permutation `shuffle`, run the candidate loop, and emit the
understaffed warning when slots remain. -/
def ensure_min_cell (shuffle : List Nat → List Nat) (st : St) (d : Int) (s : Shift) :
    St × List Diag :=
  let current := (st.schedule d s).length
  if current < MIN_EMPLOYEES_PER_SHIFT then
    let needed := MIN_EMPLOYEES_PER_SHIFT - current
    let avail := shuffle (get_available_employees st d)
    let r := fill_loop d s needed st avail 0
    if r.2 < needed then (r.1, [Diag.understaffed d s (needed - r.2)]) else (r.1, [])
  else (st, [])

/-- The (day, shift) iteration order of `_ensure_minimum_staffing`'s two
nested loops. -/
def cells : List (Int × Shift) := days.flatMap (fun d => shifts.map (fun s => (d, s)))

/-- Fold of `ensure_min_cell` over a list of cells. -/
def ensure_aux (shuffle : List Nat → List Nat) (st : St) :
    List (Int × Shift) → St × List Diag
  | [] => (st, [])
  | c :: rest =>
    let r := ensure_min_cell shuffle st c.1 c.2
    let r' := ensure_aux shuffle r.1 rest
    (r'.1, r.2 ++ r'.2)

/-- `Scheduler._ensure_minimum_staffing` (Phase 3), parametrised by the
random permutation used for `random.shuffle`. -/
def ensure_minimum_staffing (shuffle : List Nat → List Nat) (st : St) : St × List Diag :=
  ensure_aux shuffle st cells

/-- `Scheduler._reset_schedules` (Phase 1): reset every employee and
rebuild the grid empty. -/
def reset_schedules (st : St) : St :=
  { employees := st.employees.map Employee.reset_schedule, schedule := fun _ _ => [] }

/-- `Scheduler.assign_shifts`: the three phases in order, diagnostics
concatenated in the order encountered. -/
def assign_shifts (shuffle : List Nat → List Nat) (st : St) : St × List Diag :=
  let st1 := reset_schedules st
  let r2 := assign_preferred_shifts st1
  let r3 := ensure_minimum_staffing shuffle r2.1
  (r3.1, r2.2 ++ r3.2)

end Scheduler

/-! ### Invariants -/

namespace Scheduler

/-- The employee names in registration order. -/
def namesOf (st : St) : List String := st.employees.map Employee.name

/-- Per-person invariant: `days_worked` counts the schedule entries and
stays within the weekly cap. -/
def EmpInvAll (st : St) : Prop :=
  ∀ e ∈ st.employees, e.days_worked = e.schedule.length ∧
    e.days_worked ≤ MAX_WORK_DAYS_PER_WEEK

/-- Grid capacity invariant: every cell holds at most
`MAX_EMPLOYEES_PER_SHIFT` names. -/
def GridCap (st : St) : Prop :=
  ∀ d s, (st.schedule d s).length ≤ MAX_EMPLOYEES_PER_SHIFT

/-- Grid/record consistency: a name sits in cell `(d, s)` exactly when
some employee carrying that name has `schedule[d] = s`. -/
def Consist (st : St) : Prop :=
  ∀ d s n, n ∈ st.schedule d s ↔
    ∃ (i : Nat) (e : Employee),
      st.employees[i]? = some e ∧ e.name = n ∧ findShift e.schedule d = some s

/-- The conjunction of the three run invariants. -/
def StInv (st : St) : Prop := EmpInvAll st ∧ GridCap st ∧ Consist st

/-- One engine step is good when it transfers `Inv` and keeps the
employee roster (names, in order) unchanged. -/
def GoodStep (st st' : St) : Prop := (StInv st → StInv st') ∧ namesOf st' = namesOf st

/-! ### Specification-side definitions, for refinement comparison -/

/-- The conflict-resolution search order exactly as the specification
words it: first the remaining shift kinds on the preferred day in
enumeration order (skipping the preferred shift), then each other day in
weekday order, trying the preferred shift first and then each other
shift kind in enumeration order.  Written from the spec text, to be
compared with `resolve_conflict`. -/
def spec_search_order (pd : Int) (ps : Shift) : List (Int × Shift) :=
  (shifts.filter (fun sh => decide (sh ≠ ps))).map (fun sh => (pd, sh)) ++
    (days.filter (fun d => decide (d ≠ pd))).flatMap
      (fun d => (d, ps) ::
        (shifts.filter (fun sh => decide (sh ≠ ps))).map (fun sh => (d, sh)))

/-- The candidate walk exactly as the specification words it: assign
shuffled candidates under the re-evaluated check until `shortfall` slots
are filled or the candidates are exhausted.  Written from the spec text,
to be compared with `fill_loop`. -/
def spec_walk (d : Int) (s : Shift) (shortfall : Nat) :
    St → List Nat → Nat → St × Nat
  | st, [], filled => (st, filled)
  | st, c :: rest, filled =>
    if filled = shortfall then (st, filled)
    else if can_assign st c d s then
      spec_walk d s shortfall (assign st c d s) rest (filled + 1)
    else spec_walk d s shortfall st rest filled

/-- The Phase-3 cell step exactly as the specification words it:
`shortfall = max(0, 2 − cell size)` over the integers; when positive,
collect the persons for whom `canWorkDay` holds, permute them once, walk
the permuted sequence, and emit an understaffed diagnostic carrying the
remaining shortfall when the cell is still below minimum.  Written from
the spec text, to be compared with `ensure_min_cell`. -/
def ensure_min_cell_spec (shuffle : List Nat → List Nat) (st : St) (d : Int) (s : Shift) :
    St × List Diag :=
  let shortfallI : Int :=
    max 0 ((MIN_EMPLOYEES_PER_SHIFT : Int) - ((st.schedule d s).length : Int))
  if 0 < shortfallI then
    let shortfall := shortfallI.toNat
    let candidates := (List.range st.employees.length).filter (fun i =>
      match st.employees[i]? with
      | some e => e.can_work_day d
      | none => false)
    let r := spec_walk d s shortfall st (shuffle candidates) 0
    if (r.1.schedule d s).length < MIN_EMPLOYEES_PER_SHIFT then
      (r.1, [Diag.understaffed d s (MIN_EMPLOYEES_PER_SHIFT - (r.1.schedule d s).length)])
    else (r.1, [])
  else (st, [])

/-! ### Concrete states used to evaluate the theorems -/

/-- A roster with a single fresh employee and an empty grid. -/
def oneEmployeeSt : St :=
  { employees := [mkEmployee "Al"], schedule := fun _ _ => [] }

/-- An employee who has already reached the weekly cap and still states a
preference for Saturday. -/
def cappedEmp : Employee :=
  { name := "Cy", preferences := [(5, Shift.EVENING)],
    schedule := [(0, Shift.MORNING), (1, Shift.MORNING), (2, Shift.MORNING),
                 (3, Shift.MORNING), (4, Shift.MORNING)],
    days_worked := 5 }

/-- A state holding only `cappedEmp`. -/
def cappedSt : St := { employees := [cappedEmp], schedule := fun _ _ => [] }

/-- Eight distinct occupants: a grid cell at capacity. -/
def fullCell : List String :=
  ["o1", "o2", "o3", "o4", "o5", "o6", "o7", "o8"]

/-- One fresh employee, holding a Monday Morning preference, facing a
grid whose every cell is at capacity: both conflict-resolution strategies
must fail. -/
def annEmp : Employee :=
  { name := "Ann", preferences := [(0, Shift.MORNING)], schedule := [], days_worked := 0 }

/-- The state pairing `annEmp` with the everywhere-full grid. -/
def fullGridSt : St :=
  { employees := [annEmp], schedule := fun _ _ => fullCell }

/-- Scenario C of the specification: one fresh employee prefers Evening
on Tuesday (day 1); the Tuesday Evening cell is at capacity, every other
cell is open. -/
def eveningFullSt : St :=
  { employees := [mkEmployee "Pat"],
    schedule := fun d s => if d = 1 ∧ s = Shift.EVENING then fullCell else [] }

/-- The employee record produced when the lone fresh employee of
`oneEmployeeSt` is pushed through one conflict-resolution step for a
Morning preference on Monday (Strategy A lands on Afternoon). -/
def resolvedAl : Employee :=
  { name := "Al", preferences := [], schedule := [((0 : Int), Shift.AFTERNOON)],
    days_worked := 1 }

/-! ### Theorems -/

theorem goodStep_refl (st : St) : GoodStep st st := ⟨id, rfl⟩

theorem goodStep_trans {a b c : St} (h1 : GoodStep a b) (h2 : GoodStep b c) :
    GoodStep a c :=
  ⟨fun hi => h2.1 (h1.1 hi), h2.2.trans h1.2⟩

theorem findShift_insert_self (l : List (Int × Shift)) (d : Int) (s : Shift) :
    findShift (insertShift l d s) d = some s := by
  induction l with
  | nil => simp [insertShift, findShift]
  | cons p t ih =>
    obtain ⟨k, v⟩ := p
    by_cases h : k = d
    · simp [insertShift, findShift, h]
    · simp [insertShift, findShift, h, ih]

theorem findShift_insert_ne (l : List (Int × Shift)) (d d' : Int) (s : Shift)
    (h : d' ≠ d) : findShift (insertShift l d s) d' = findShift l d' := by
  induction l with
  | nil =>
    simp [insertShift, findShift]
    intro h'
    exact absurd h'.symm h
  | cons p t ih =>
    obtain ⟨k, v⟩ := p
    by_cases hk : k = d
    · subst hk
      simp [insertShift, findShift, (Ne.symm h)]
    · simp only [insertShift, if_neg hk, findShift]
      by_cases hk' : k = d'
      · simp [hk']
      · simp [hk', ih]

theorem insertShift_length_of_not_mem (l : List (Int × Shift)) (d : Int) (s : Shift)
    (h : findShift l d = none) : (insertShift l d s).length = l.length + 1 := by
  induction l with
  | nil => simp [insertShift]
  | cons p t ih =>
    obtain ⟨k, v⟩ := p
    simp only [findShift] at h
    by_cases hk : k = d
    · simp [hk] at h
    · simp only [insertShift, if_neg hk, List.length_cons]
      rw [ih (by simpa [hk] using h)]

theorem can_work_day_iff (e : Employee) (d : Int) :
    e.can_work_day d = true ↔
      findShift e.schedule d = none ∧ e.days_worked < MAX_WORK_DAYS_PER_WEEK := by
  simp [Employee.can_work_day, Option.isNone_iff_eq_none]

theorem assign_shift_of_can {e : Employee} {d : Int} (s : Shift)
    (h : e.can_work_day d = true) :
    e.assign_shift d s =
      ({ e with schedule := insertShift e.schedule d s,
                days_worked := e.days_worked + 1 }, true) := by
  simp [Employee.assign_shift, h]

theorem assign_shift_of_not_can {e : Employee} {d : Int} (s : Shift)
    (h : e.can_work_day d = false) : e.assign_shift d s = (e, false) := by
  simp [Employee.assign_shift, h]

theorem list_set_self {α : Type} {l : List α} {i : Nat} {a : α}
    (h : l[i]? = some a) : l.set i a = l := by
  induction l generalizing i with
  | nil => simp at h
  | cons x t ih =>
    cases i with
    | zero =>
      simp at h
      simp [List.set, h]
    | succ n =>
      simp at h
      simp [List.set, ih h]

theorem can_assign_true {st : St} {i : Nat} {d : Int} {s : Shift}
    (h : can_assign st i d s = true) :
    ∃ e, st.employees[i]? = some e ∧ e.can_work_day d = true ∧
      (st.schedule d s).length < MAX_EMPLOYEES_PER_SHIFT := by
  unfold can_assign at h
  cases hi : st.employees[i]? with
  | none => rw [hi] at h; exact absurd h (by simp)
  | some e =>
    rw [hi] at h
    simp only [Bool.and_eq_true, decide_eq_true_eq] at h
    exact ⟨e, rfl, h.1, h.2⟩

/-- Unfolding `assign` when the employee exists and can work the day. -/
theorem assign_eq {st : St} {i : Nat} {e : Employee} {d : Int} (s : Shift)
    (hi : st.employees[i]? = some e) (hcw : e.can_work_day d = true) :
    assign st i d s =
      { employees := st.employees.set i
          { e with schedule := insertShift e.schedule d s,
                   days_worked := e.days_worked + 1 },
        schedule := gridAppend st.schedule d s e.name } := by
  unfold assign
  rw [hi]
  simp [assign_shift_of_can s hcw]

theorem assign_names (st : St) (i : Nat) (d : Int) (s : Shift) :
    namesOf (assign st i d s) = namesOf st := by
  cases hi : st.employees[i]? with
  | none =>
    unfold assign
    rw [hi]
  | some e =>
    by_cases hcw : e.can_work_day d = true
    · rw [assign_eq s hi hcw]
      simp only [namesOf, List.map_set]
      have h : (List.map Employee.name st.employees)[i]? = some e.name := by
        rw [List.getElem?_map, hi]
        rfl
      exact list_set_self h
    · unfold assign
      rw [hi]
      simp [assign_shift_of_not_can s (by simpa using hcw)]


theorem assign_empInv (st : St) (i : Nat) (d : Int) (s : Shift)
    (hE : EmpInvAll st) : EmpInvAll (assign st i d s) := by
  cases hi : st.employees[i]? with
  | none => unfold assign; rw [hi]; exact hE
  | some e =>
    by_cases hcw : e.can_work_day d = true
    · rw [assign_eq s hi hcw]
      intro e' he'
      rcases List.mem_or_eq_of_mem_set he' with h | h
      · exact hE e' h
      · subst h
        obtain ⟨hfind, hdw⟩ := (can_work_day_iff e d).mp hcw
        have hmem : e ∈ st.employees := List.mem_iff_getElem?.mpr ⟨i, hi⟩
        obtain ⟨hlen, _⟩ := hE e hmem
        constructor
        · show e.days_worked + 1 = (insertShift e.schedule d s).length
          rw [insertShift_length_of_not_mem _ _ _ hfind, hlen]
        · show e.days_worked + 1 ≤ MAX_WORK_DAYS_PER_WEEK
          omega
    · unfold assign
      rw [hi]
      simp only [assign_shift_of_not_can s (by simpa using hcw)]
      exact hE

theorem assign_gridCap (st : St) (i : Nat) (d : Int) (s : Shift)
    (hlt : (st.schedule d s).length < MAX_EMPLOYEES_PER_SHIFT)
    (hG : GridCap st) : GridCap (assign st i d s) := by
  cases hi : st.employees[i]? with
  | none => unfold assign; rw [hi]; exact hG
  | some e =>
    by_cases hcw : e.can_work_day d = true
    · rw [assign_eq s hi hcw]
      intro d0 s0
      show (gridAppend st.schedule d s e.name d0 s0).length ≤ _
      unfold gridAppend
      by_cases hcell : d0 = d ∧ s0 = s
      · obtain ⟨rfl, rfl⟩ := hcell
        rw [if_pos ⟨rfl, rfl⟩, List.length_append]
        simp only [List.length_singleton]
        omega
      · rw [if_neg hcell]
        exact hG d0 s0
    · unfold assign
      rw [hi]
      simp only [assign_shift_of_not_can s (by simpa using hcw)]
      exact hG

theorem exists_set_iff {l : List Employee} {i : Nat} {e e₁ : Employee}
    (hi : l[i]? = some e) (P : Employee → Prop) (hP : P e ↔ P e₁) :
    (∃ (j : Nat) (x : Employee), (l.set i e₁)[j]? = some x ∧ P x) ↔
      (∃ (j : Nat) (x : Employee), l[j]? = some x ∧ P x) := by
  constructor
  · rintro ⟨j, x, hx, hpx⟩
    by_cases hj : i = j
    · subst hj
      rw [List.getElem?_set_self', hi] at hx
      simp only [Option.map_some, Function.const_apply] at hx
      obtain rfl := Option.some.inj hx
      exact ⟨i, e, hi, hP.mpr hpx⟩
    · rw [List.getElem?_set_ne hj] at hx
      exact ⟨j, x, hx, hpx⟩
  · rintro ⟨j, x, hx, hpx⟩
    by_cases hj : i = j
    · subst hj
      rw [hi] at hx
      obtain rfl := Option.some.inj hx
      refine ⟨i, e₁, ?_, hP.mp hpx⟩
      rw [List.getElem?_set_self', hi]
      rfl
    · refine ⟨j, x, ?_, hpx⟩
      rw [List.getElem?_set_ne hj]
      exact hx

theorem consist_after (st : St) (i : Nat) (d : Int) (s : Shift) (e e₁ : Employee)
    (hi : st.employees[i]? = some e) (hfind : findShift e.schedule d = none)
    (hname : e₁.name = e.name) (hsch : e₁.schedule = insertShift e.schedule d s)
    (hC : Consist st) :
    Consist { employees := st.employees.set i e₁,
              schedule := gridAppend st.schedule d s e.name } := by
  intro d0 s0 n
  show n ∈ gridAppend st.schedule d s e.name d0 s0 ↔ _
  unfold gridAppend
  by_cases hcell : d0 = d ∧ s0 = s
  · obtain ⟨rfl, rfl⟩ := hcell
    rw [if_pos ⟨rfl, rfl⟩, List.mem_append, List.mem_singleton]
    constructor
    · rintro (hmem | rfl)
      · obtain ⟨j, x, hx, hxn, hxs⟩ := (hC d0 s0 n).mp hmem
        by_cases hj : i = j
        · subst hj
          rw [hi] at hx
          obtain rfl := Option.some.inj hx
          rw [hfind] at hxs
          cases hxs
        · refine ⟨j, x, ?_, hxn, hxs⟩
          rw [List.getElem?_set_ne hj]
          exact hx
      · refine ⟨i, e₁, ?_, hname, ?_⟩
        · rw [List.getElem?_set_self', hi]
          rfl
        · rw [hsch]
          exact findShift_insert_self _ _ _
    · rintro ⟨j, x, hx, hxn, hxs⟩
      by_cases hj : i = j
      · subst hj
        rw [List.getElem?_set_self', hi] at hx
        simp only [Option.map_some, Function.const_apply] at hx
        obtain rfl := Option.some.inj hx
        right
        rw [← hxn, hname]
      · rw [List.getElem?_set_ne hj] at hx
        exact Or.inl ((hC d0 s0 n).mpr ⟨j, x, hx, hxn, hxs⟩)
  · rw [if_neg hcell]
    have hP : (e.name = n ∧ findShift e.schedule d0 = some s0) ↔
        (e₁.name = n ∧ findShift e₁.schedule d0 = some s0) := by
      by_cases hd : d0 = d
      · subst hd
        have hs : ¬s0 = s := fun h => hcell ⟨rfl, h⟩
        constructor
        · rintro ⟨-, hfs⟩
          rw [hfind] at hfs
          cases hfs
        · rintro ⟨-, hfs⟩
          rw [hsch, findShift_insert_self] at hfs
          exact absurd (Option.some.inj hfs).symm hs
      · rw [hname, hsch, findShift_insert_ne _ _ _ _ hd]
    rw [hC d0 s0 n]
    exact (exists_set_iff hi
      (fun x => x.name = n ∧ findShift x.schedule d0 = some s0) hP).symm

theorem assign_consist (st : St) (i : Nat) (d : Int) (s : Shift)
    (hC : Consist st) : Consist (assign st i d s) := by
  cases hi : st.employees[i]? with
  | none => unfold assign; rw [hi]; exact hC
  | some e =>
    by_cases hcw : e.can_work_day d = true
    · obtain ⟨hfind, -⟩ := (can_work_day_iff e d).mp hcw
      rw [assign_eq s hi hcw]
      exact consist_after st i d s e _ hi hfind rfl rfl hC
    · unfold assign
      rw [hi]
      simp only [assign_shift_of_not_can s (by simpa using hcw)]
      exact hC

/-- The guarded assignment step (as used at every call site of `_assign`,
each protected by `_can_assign`) is a good step. -/
theorem assign_good (st : St) (i : Nat) (d : Int) (s : Shift)
    (hca : can_assign st i d s = true) : GoodStep st (assign st i d s) := by
  obtain ⟨e, hi, hcw, hlt⟩ := can_assign_true hca
  refine ⟨fun hInv => ?_, assign_names st i d s⟩
  obtain ⟨hE, hG, hC⟩ := hInv
  exact ⟨assign_empInv st i d s hE, assign_gridCap st i d s hlt hG,
    assign_consist st i d s hC⟩


theorem resolve_days_good (st : St) (i : Nat) (pd : Int) (ps : Shift) :
    ∀ (ds : List Int) (st' : St), resolve_days st i pd ps ds = some st' → GoodStep st st' := by
  intro ds
  induction ds with
  | nil => intro st' h; cases h
  | cons od rest ih =>
    intro st' h
    unfold resolve_days at h
    by_cases h1 : od = pd
    · rw [if_pos h1] at h
      exact ih st' h
    · rw [if_neg h1] at h
      by_cases h2 : can_assign st i od ps = true
      · rw [if_pos h2] at h
        obtain rfl := Option.some.inj h
        exact assign_good _ _ _ _ h2
      · rw [if_neg h2] at h
        cases hf : shifts.find? (fun sh => can_assign st i od sh) with
        | some sh =>
          rw [hf] at h
          obtain rfl := Option.some.inj h
          exact assign_good _ _ _ _ (List.find?_some hf)
        | none =>
          rw [hf] at h
          exact ih st' h

theorem resolve_conflict_good (st : St) (i : Nat) (pd : Int) (ps : Shift) :
    GoodStep st (resolve_conflict st i pd ps).1 := by
  unfold resolve_conflict
  cases hf : shifts.find? (fun sh => decide (sh ≠ ps) && can_assign st i pd sh) with
  | some sh =>
    have hp := List.find?_some hf
    simp only [Bool.and_eq_true] at hp
    exact assign_good _ _ _ _ hp.2
  | none =>
    cases hr : resolve_days st i pd ps days with
    | some st' => exact resolve_days_good st i pd ps days st' hr
    | none => exact goodStep_refl st

theorem assign_days_good (i : Nat) :
    ∀ (ds : List Int) (st : St), GoodStep st (assign_days st i ds).1 := by
  intro ds
  induction ds with
  | nil => intro st; exact goodStep_refl st
  | cons d rest ih =>
    intro st
    unfold assign_days
    cases hi : st.employees[i]? with
    | none => exact goodStep_refl st
    | some e =>
      simp only []
      by_cases hb : MAX_WORK_DAYS_PER_WEEK ≤ e.days_worked
      · rw [if_pos hb]
        exact goodStep_refl st
      · rw [if_neg hb]
        cases hp : e.get_preference d with
        | none => exact ih st
        | some ps =>
          simp only []
          by_cases hca : can_assign st i d ps = true
          · simp only [if_pos hca]
            exact goodStep_trans (assign_good _ _ _ _ hca) (ih (assign st i d ps))
          · simp only [if_neg hca]
            exact goodStep_trans (resolve_conflict_good st i d ps)
              (ih (resolve_conflict st i d ps).1)

theorem assign_preferred_aux_good :
    ∀ (idxs : List Nat) (st : St), GoodStep st (assign_preferred_aux st idxs).1 := by
  intro idxs
  induction idxs with
  | nil => intro st; exact goodStep_refl st
  | cons i rest ih =>
    intro st
    exact goodStep_trans (assign_days_good i days st) (ih (assign_days st i days).1)

theorem fill_loop_good (d : Int) (s : Shift) (needed : Nat) :
    ∀ (l : List Nat) (st : St) (k : Nat), GoodStep st (fill_loop d s needed st l k).1 := by
  intro l
  induction l with
  | nil => intro st k; exact goodStep_refl st
  | cons i rest ih =>
    intro st k
    unfold fill_loop
    by_cases h1 : needed ≤ k
    · rw [if_pos h1]
      exact goodStep_refl st
    · rw [if_neg h1]
      by_cases h2 : can_assign st i d s = true
      · rw [if_pos h2]
        exact goodStep_trans (assign_good _ _ _ _ h2) (ih _ _)
      · rw [if_neg h2]
        exact ih _ _

theorem ensure_min_cell_good (sh : List Nat → List Nat) (st : St) (d : Int) (s : Shift) :
    GoodStep st (ensure_min_cell sh st d s).1 := by
  unfold ensure_min_cell
  by_cases h1 : (st.schedule d s).length < MIN_EMPLOYEES_PER_SHIFT
  · rw [if_pos h1]
    simp only []
    split
    · exact fill_loop_good _ _ _ _ _ _
    · exact fill_loop_good _ _ _ _ _ _
  · rw [if_neg h1]
    exact goodStep_refl st

theorem ensure_aux_good (sh : List Nat → List Nat) :
    ∀ (cs : List (Int × Shift)) (st : St), GoodStep st (ensure_aux sh st cs).1 := by
  intro cs
  induction cs with
  | nil => intro st; exact goodStep_refl st
  | cons c rest ih =>
    intro st
    exact goodStep_trans (ensure_min_cell_good sh st c.1 c.2)
      (ih (ensure_min_cell sh st c.1 c.2).1)

theorem reset_names (st : St) : namesOf (reset_schedules st) = namesOf st := by
  unfold namesOf reset_schedules
  have h : Employee.name ∘ Employee.reset_schedule = Employee.name := funext fun e => rfl
  rw [List.map_map, h]

theorem reset_inv (st : St) : StInv (reset_schedules st) := by
  refine ⟨?_, ?_, ?_⟩
  · intro e he
    obtain ⟨e0, -, rfl⟩ := List.mem_map.mp he
    exact ⟨rfl, Nat.zero_le _⟩
  · intro d s
    exact Nat.zero_le _
  · intro d s n
    constructor
    · intro h
      exact absurd h (List.not_mem_nil n)
    · rintro ⟨j, x, hx, -, hxs⟩
      simp only [reset_schedules] at hx
      rw [List.getElem?_map] at hx
      cases h0 : st.employees[j]? with
      | none => rw [h0] at hx; cases hx
      | some e0 =>
        rw [h0] at hx
        obtain rfl := Option.some.inj hx
        cases hxs

/-- The three run invariants hold after Phase 1, after Phase 2 and after
Phase 3 of every run. -/
theorem run_checkpoints (st : St) (sh : List Nat → List Nat) :
    StInv (reset_schedules st) ∧
    StInv (assign_preferred_shifts (reset_schedules st)).1 ∧
    StInv (ensure_minimum_staffing sh (assign_preferred_shifts (reset_schedules st)).1).1 := by
  have h1 := reset_inv st
  have g2 := assign_preferred_aux_good
    (List.range (reset_schedules st).employees.length) (reset_schedules st)
  have h2 := g2.1 h1
  have g3 := ensure_aux_good sh cells (assign_preferred_shifts (reset_schedules st)).1
  exact ⟨h1, h2, g3.1 h2⟩

/-- The roster of names is unchanged by every phase. -/
theorem run_names (st : St) (sh : List Nat → List Nat) :
    namesOf (reset_schedules st) = namesOf st ∧
    namesOf (assign_preferred_shifts (reset_schedules st)).1 = namesOf st ∧
    namesOf (ensure_minimum_staffing sh (assign_preferred_shifts (reset_schedules st)).1).1
      = namesOf st := by
  have h1 := reset_names st
  have g2 := assign_preferred_aux_good
    (List.range (reset_schedules st).employees.length) (reset_schedules st)
  have g3 := ensure_aux_good sh cells (assign_preferred_shifts (reset_schedules st)).1
  exact ⟨h1, g2.2.trans h1, g3.2.trans (g2.2.trans h1)⟩


theorem consist_perPerson {st : St} (hC : Consist st) (hN : (namesOf st).Nodup) :
    ∀ e ∈ st.employees, ∀ (d : Int) (s : Shift),
      (e.name ∈ st.schedule d s ↔ findShift e.schedule d = some s) := by
  intro e he d s
  obtain ⟨i, hi⟩ := List.mem_iff_getElem?.mp he
  constructor
  · intro hmem
    obtain ⟨j, x, hx, hxn, hxs⟩ := (hC d s e.name).mp hmem
    have hjlen : j < st.employees.length := (List.getElem?_eq_some.mp hx).1
    have hji : j = i := by
      refine @List.getElem?_inj _ j i (namesOf st) ?_ hN ?_
      · unfold namesOf
        rw [List.length_map]
        exact hjlen
      · unfold namesOf
        rw [List.getElem?_map, List.getElem?_map, hx, hi]
        simp [hxn]
    subst hji
    rw [hi] at hx
    obtain rfl := Option.some.inj hx
    exact hxs
  · intro hfs
    exact (hC d s e.name).mpr ⟨i, e, hi, rfl, hfs⟩

/-- C1: for every person, after every engine step — Phase 1's reset,
Phase 2's preferred assignment (conflict resolution included), any single
conflict-resolution step on an invariant-satisfying state, and Phase 3's
backfill — `days_worked` equals the number of entries in the person's
assignment map and never exceeds 5. -/
theorem claim_C1_daysWorked_counts_assignments (st : St) (sh : List Nat → List Nat) :
    (∀ e ∈ (reset_schedules st).employees,
        e.days_worked = e.schedule.length ∧ e.days_worked ≤ MAX_WORK_DAYS_PER_WEEK) ∧
    (∀ e ∈ (assign_preferred_shifts (reset_schedules st)).1.employees,
        e.days_worked = e.schedule.length ∧ e.days_worked ≤ MAX_WORK_DAYS_PER_WEEK) ∧
    (∀ e ∈ (ensure_minimum_staffing sh
        (assign_preferred_shifts (reset_schedules st)).1).1.employees,
        e.days_worked = e.schedule.length ∧ e.days_worked ≤ MAX_WORK_DAYS_PER_WEEK) ∧
    (∀ (st' : St) (i : Nat) (pd : Int) (ps : Shift), StInv st' →
      ∀ e ∈ (resolve_conflict st' i pd ps).1.employees,
        e.days_worked = e.schedule.length ∧ e.days_worked ≤ MAX_WORK_DAYS_PER_WEEK) := by
  obtain ⟨h1, h2, h3⟩ := run_checkpoints st sh
  refine ⟨h1.1, h2.1, h3.1, fun st' i pd ps hInv => ?_⟩
  exact ((resolve_conflict_good st' i pd ps).1 hInv).1

theorem claim_C1_witness :
    resolvedAl.days_worked = resolvedAl.schedule.length ∧
    resolvedAl.days_worked ≤ MAX_WORK_DAYS_PER_WEEK :=
  (claim_C1_daysWorked_counts_assignments oneEmployeeSt id).2.2.2
    (reset_schedules oneEmployeeSt) 0 0 Shift.MORNING (reset_inv oneEmployeeSt)
    resolvedAl (by decide)

/-- C2: after every engine step, a person appears in the roster-grid cell
for (d, s) exactly when that person's assignment map sends d to s, given
that employee names are distinct (which the input collaborator enforces);
stated after Phase 1, Phase 2, Phase 3, and after any single
conflict-resolution step on an invariant-satisfying state. -/
theorem claim_C2_grid_record_consistency (st : St) (sh : List Nat → List Nat)
    (hN : (namesOf st).Nodup) :
    (∀ e ∈ (reset_schedules st).employees, ∀ (d : Int) (s : Shift),
        (e.name ∈ (reset_schedules st).schedule d s ↔
          findShift e.schedule d = some s)) ∧
    (∀ e ∈ (assign_preferred_shifts (reset_schedules st)).1.employees,
        ∀ (d : Int) (s : Shift),
        (e.name ∈ (assign_preferred_shifts (reset_schedules st)).1.schedule d s ↔
          findShift e.schedule d = some s)) ∧
    (∀ e ∈ (ensure_minimum_staffing sh
        (assign_preferred_shifts (reset_schedules st)).1).1.employees,
        ∀ (d : Int) (s : Shift),
        (e.name ∈ (ensure_minimum_staffing sh
            (assign_preferred_shifts (reset_schedules st)).1).1.schedule d s ↔
          findShift e.schedule d = some s)) ∧
    (∀ (st' : St) (i : Nat) (pd : Int) (ps : Shift),
      StInv st' → (namesOf st').Nodup →
      ∀ e ∈ (resolve_conflict st' i pd ps).1.employees, ∀ (d : Int) (s : Shift),
        (e.name ∈ (resolve_conflict st' i pd ps).1.schedule d s ↔
          findShift e.schedule d = some s)) := by
  obtain ⟨h1, h2, h3⟩ := run_checkpoints st sh
  obtain ⟨n1, n2, n3⟩ := run_names st sh
  refine ⟨consist_perPerson h1.2.2 (by rw [n1]; exact hN),
    consist_perPerson h2.2.2 (by rw [n2]; exact hN),
    consist_perPerson h3.2.2 (by rw [n3]; exact hN),
    fun st' i pd ps hInv hN' => ?_⟩
  have g := resolve_conflict_good st' i pd ps
  exact consist_perPerson ((g.1 hInv).2.2) (by rw [g.2]; exact hN')

theorem claim_C2_witness :
    ((mkEmployee "Al").name ∈ (reset_schedules oneEmployeeSt).schedule 0 Shift.MORNING ↔
      findShift (mkEmployee "Al").schedule 0 = some Shift.MORNING) :=
  (claim_C2_grid_record_consistency oneEmployeeSt id (by decide)).1
    (mkEmployee "Al") (by decide) 0 Shift.MORNING

/-- C3: after every engine step — Phase 1, Phase 2, Phase 3, and any
single conflict-resolution step on an invariant-satisfying state — every
roster-grid cell holds at most 8 persons. -/
theorem claim_C3_cell_capacity (st : St) (sh : List Nat → List Nat) :
    (∀ (d : Int) (s : Shift),
        ((reset_schedules st).schedule d s).length ≤ MAX_EMPLOYEES_PER_SHIFT) ∧
    (∀ (d : Int) (s : Shift),
        ((assign_preferred_shifts (reset_schedules st)).1.schedule d s).length ≤
          MAX_EMPLOYEES_PER_SHIFT) ∧
    (∀ (d : Int) (s : Shift),
        ((ensure_minimum_staffing sh
          (assign_preferred_shifts (reset_schedules st)).1).1.schedule d s).length ≤
          MAX_EMPLOYEES_PER_SHIFT) ∧
    (∀ (st' : St) (i : Nat) (pd : Int) (ps : Shift), StInv st' →
      ∀ (d : Int) (s : Shift),
        ((resolve_conflict st' i pd ps).1.schedule d s).length ≤
          MAX_EMPLOYEES_PER_SHIFT) := by
  obtain ⟨h1, h2, h3⟩ := run_checkpoints st sh
  refine ⟨h1.2.1, h2.2.1, h3.2.1, fun st' i pd ps hInv => ?_⟩
  exact ((resolve_conflict_good st' i pd ps).1 hInv).2.1

theorem claim_C3_witness :
    ((resolve_conflict (reset_schedules oneEmployeeSt) 0 0 Shift.MORNING).1.schedule
      0 Shift.AFTERNOON).length ≤ MAX_EMPLOYEES_PER_SHIFT :=
  (claim_C3_cell_capacity oneEmployeeSt id).2.2.2
    (reset_schedules oneEmployeeSt) 0 0 Shift.MORNING (reset_inv oneEmployeeSt)
    0 Shift.AFTERNOON

/-- C4: `can_work_day` holds exactly when the day is unassigned and
`days_worked` is below 5; when it fails, `assign_shift` returns `false`
and leaves the employee unchanged; when it holds, `assign_shift` stores
the shift under the day, increments `days_worked` by exactly one and
returns `true`. -/
theorem claim_C4_assign_shift_contract (e : Employee) (d : Int) (s : Shift) :
    (e.can_work_day d = true ↔
      (findShift e.schedule d = none ∧ e.days_worked < MAX_WORK_DAYS_PER_WEEK)) ∧
    (e.can_work_day d = false → e.assign_shift d s = (e, false)) ∧
    (e.can_work_day d = true →
      e.assign_shift d s =
        ({ e with schedule := insertShift e.schedule d s,
                  days_worked := e.days_worked + 1 }, true) ∧
      findShift (e.assign_shift d s).1.schedule d = some s ∧
      (e.assign_shift d s).1.days_worked = e.days_worked + 1) := by
  refine ⟨can_work_day_iff e d, fun h => assign_shift_of_not_can s h, fun h => ?_⟩
  refine ⟨assign_shift_of_can s h, ?_, ?_⟩
  · rw [assign_shift_of_can s h]
    exact findShift_insert_self _ _ _
  · rw [assign_shift_of_can s h]

theorem claim_C4_witness :
    (mkEmployee "Bo").can_work_day 0 = true ∧
    (mkEmployee "Bo").assign_shift 0 Shift.MORNING =
      ({ name := "Bo", preferences := [], schedule := [((0 : Int), Shift.MORNING)],
         days_worked := 1 }, true) :=
  ⟨by decide,
    ((claim_C4_assign_shift_contract (mkEmployee "Bo") 0 Shift.MORNING).2.2 (by decide)).1⟩

/-- C6: in Phase 2's per-person day loop, once the person's `days_worked`
has reached 5, every remaining day is skipped without being examined:
the state is returned unchanged and no diagnostic is produced, even when
the remaining days carry stated preferences. -/
theorem claim_C6_truncated_scan (st : St) (i : Nat) (e : Employee) (ds : List Int)
    (hi : st.employees[i]? = some e)
    (hb : MAX_WORK_DAYS_PER_WEEK ≤ e.days_worked) :
    assign_days st i ds = (st, []) := by
  cases ds with
  | nil => rfl
  | cons d rest =>
    unfold assign_days
    rw [hi]
    simp only []
    rw [if_pos hb]

theorem claim_C6_witness : assign_days cappedSt 0 days = (cappedSt, []) :=
  claim_C6_truncated_scan cappedSt 0 cappedEmp days rfl (by decide)

/-- C9: `reset_schedule` empties the assignment map and zeroes
`days_worked` while leaving the name and the entire preference map
untouched, on every invocation. -/
theorem claim_C9_reset_frame (e : Employee) :
    (e.reset_schedule).name = e.name ∧
    (e.reset_schedule).preferences = e.preferences ∧
    (e.reset_schedule).schedule = [] ∧
    (e.reset_schedule).days_worked = 0 :=
  ⟨rfl, rfl, rfl, rfl⟩

/-- C10: the employee operations place no range restriction on the day:
`can_work_day` is exactly the two per-person rules for every integer day,
and on a fresh employee `assign_shift` succeeds for day −1 (and day 42),
storing the assignment under that key and incrementing `days_worked`. -/
theorem claim_C10_unrestricted_days (n : String) (s : Shift) :
    (∀ (e : Employee) (d : Int), e.can_work_day d = true ↔
      (findShift e.schedule d = none ∧ e.days_worked < MAX_WORK_DAYS_PER_WEEK)) ∧
    (mkEmployee n).can_work_day (-1) = true ∧
    (mkEmployee n).assign_shift (-1) s =
      ({ name := n, preferences := [], schedule := [((-1 : Int), s)],
         days_worked := 1 }, true) ∧
    (mkEmployee n).can_work_day 42 = true ∧
    (mkEmployee n).assign_shift 42 s =
      ({ name := n, preferences := [], schedule := [((42 : Int), s)],
         days_worked := 1 }, true) :=
  ⟨fun e d => can_work_day_iff e d, rfl, rfl, rfl, rfl⟩


theorem shift_mem_shifts (s : Shift) : s ∈ shifts := by
  cases s <;> simp [shifts]

theorem resolve_days_none (st : St) (i : Nat) (pd : Int) (ps : Shift) :
    ∀ ds : List Int,
      (∀ od ∈ ds, od ≠ pd → ∀ sh ∈ shifts, can_assign st i od sh = false) →
      resolve_days st i pd ps ds = none := by
  intro ds
  induction ds with
  | nil => intro _; rfl
  | cons od rest ih =>
    intro h
    unfold resolve_days
    by_cases h1 : od = pd
    · rw [if_pos h1]
      exact ih fun od' hm hne => h od' (List.mem_cons_of_mem od hm) hne
    · rw [if_neg h1]
      have hps : can_assign st i od ps = false :=
        h od (List.mem_cons_self od rest) h1 ps (shift_mem_shifts ps)
      rw [if_neg (by simp [hps])]
      have hf : shifts.find? (fun sh => can_assign st i od sh) = none :=
        List.find?_eq_none.mpr fun sh hsh =>
          by simp [h od (List.mem_cons_self od rest) h1 sh hsh]
      rw [hf]
      exact ih fun od' hm hne => h od' (List.mem_cons_of_mem od hm) hne

theorem resolve_conflict_all_blocked (st : St) (i : Nat) (pd : Int) (ps : Shift)
    (e : Employee) (hi : st.employees[i]? = some e) (hpd : pd ∈ days)
    (hfail : ∀ d ∈ days, ∀ sh ∈ shifts, ¬(d = pd ∧ sh = ps) →
      can_assign st i d sh = false) :
    resolve_conflict st i pd ps = (st, [Diag.unresolved e.name]) := by
  unfold resolve_conflict
  have h1 : shifts.find? (fun sh => decide (sh ≠ ps) && can_assign st i pd sh) = none := by
    apply List.find?_eq_none.mpr
    intro sh hsh
    by_cases hne : sh = ps
    · simp [hne]
    · simp [hne, hfail pd hpd sh hsh (fun hc => hne hc.2)]
  rw [h1]
  rw [resolve_days_none st i pd ps days
    (fun od hm hne sh hsh => hfail od hm sh hsh (fun hc => hne hc.1))]
  rw [hi]

/-- C8 (amended): when both conflict-resolution strategies fail for a
stated preference, the engine emits the unresolved-preference warning —
which identifies the person by name only — makes no assignment, and the
Phase-2 loop simply moves on to the remaining days, never revisiting the
failed preference.  The hypothesis says every cell a strategy may try is
blocked for this employee. -/
theorem claim_C8_unresolved_diag (st : St) (i : Nat) (pd : Int) (ps : Shift)
    (e : Employee) (hi : st.employees[i]? = some e) (hpd : pd ∈ days)
    (hfail : ∀ d ∈ days, ∀ sh ∈ shifts, ¬(d = pd ∧ sh = ps) →
      can_assign st i d sh = false)
    (hdirect : can_assign st i pd ps = false)
    (hdw : e.days_worked < MAX_WORK_DAYS_PER_WEEK)
    (hpref : e.get_preference pd = some ps) :
    resolve_conflict st i pd ps = (st, [Diag.unresolved e.name]) ∧
    (∀ rest : List Int,
      assign_days st i (pd :: rest) =
        ((assign_days st i rest).1,
          Diag.unresolved e.name :: (assign_days st i rest).2)) := by
  have hrc := resolve_conflict_all_blocked st i pd ps e hi hpd hfail
  refine ⟨hrc, fun rest => ?_⟩
  conv_lhs => unfold assign_days
  rw [hi]
  simp only []
  rw [if_neg (Nat.not_le.mpr hdw), hpref]
  simp only []
  rw [if_neg (by simp [hdirect]), hrc]
  rfl

theorem claim_C8_witness :
    resolve_conflict fullGridSt 0 0 Shift.MORNING =
      (fullGridSt, [Diag.unresolved "Ann"]) :=
  (claim_C8_unresolved_diag fullGridSt 0 0 Shift.MORNING annEmp rfl (by decide)
    (by decide) (by decide) (by decide) (by decide)).1

/-- C8 counterexample to the claim as stated: the warning emitted when
both strategies fail carries only the employee's name, so two failures
for different (day, shift) preferences produce identical diagnostics —
the diagnostic does not identify the day or the shift. -/
theorem claim_C8_counterexample :
    (resolve_conflict fullGridSt 0 0 Shift.MORNING).2 =
      (resolve_conflict fullGridSt 0 5 Shift.EVENING).2 ∧
    (resolve_conflict fullGridSt 0 0 Shift.MORNING).2 = [Diag.unresolved "Ann"] ∧
    ¬((0 : Int) = 5 ∧ Shift.MORNING = Shift.EVENING) := by
  refine ⟨?_, ?_, by decide⟩ <;> decide


theorem assign_cell_len {st : St} {i : Nat} {d : Int} {s : Shift}
    (hca : can_assign st i d s = true) :
    ((assign st i d s).schedule d s).length = (st.schedule d s).length + 1 := by
  obtain ⟨e, hi, hcw, -⟩ := can_assign_true hca
  rw [assign_eq s hi hcw]
  show (gridAppend st.schedule d s e.name d s).length = _
  unfold gridAppend
  rw [if_pos ⟨rfl, rfl⟩, List.length_append]
  rfl

theorem fill_eq_walk (d : Int) (s : Shift) (needed : Nat) :
    ∀ (l : List Nat) (st : St) (k : Nat), k ≤ needed →
      fill_loop d s needed st l k = spec_walk d s needed st l k := by
  intro l
  induction l with
  | nil => intro st k hk; rfl
  | cons c rest ih =>
    intro st k hk
    unfold fill_loop spec_walk
    by_cases heq : k = needed
    · rw [if_pos (by omega : needed ≤ k), if_pos heq]
    · have h1 : ¬needed ≤ k := by omega
      rw [if_neg h1, if_neg heq]
      by_cases h2 : can_assign st c d s = true
      · rw [if_pos h2, if_pos h2]
        exact ih (assign st c d s) (k + 1) (by omega)
      · rw [if_neg h2, if_neg h2]
        exact ih st k hk

theorem fill_loop_props (d : Int) (s : Shift) (needed : Nat) :
    ∀ (l : List Nat) (st : St) (k : Nat), k ≤ needed →
      ((fill_loop d s needed st l k).1.schedule d s).length + k
          = (st.schedule d s).length + (fill_loop d s needed st l k).2 ∧
        k ≤ (fill_loop d s needed st l k).2 ∧
        (fill_loop d s needed st l k).2 ≤ needed := by
  intro l
  induction l with
  | nil => intro st k hk; exact ⟨rfl, Nat.le_refl k, hk⟩
  | cons c rest ih =>
    intro st k hk
    unfold fill_loop
    by_cases h1 : needed ≤ k
    · rw [if_pos h1]
      exact ⟨rfl, Nat.le_refl k, hk⟩
    · rw [if_neg h1]
      by_cases h2 : can_assign st c d s = true
      · rw [if_pos h2]
        obtain ⟨ha, hb, hc⟩ := ih (assign st c d s) (k + 1) (by omega)
        refine ⟨?_, by omega, hc⟩
        rw [assign_cell_len h2] at ha
        omega
      · rw [if_neg h2]
        exact ih st k hk

theorem ensure_min_cell_eq (shuffle : List Nat → List Nat) (st : St) (d : Int) (s : Shift) :
    ensure_min_cell shuffle st d s = ensure_min_cell_spec shuffle st d s := by
  unfold ensure_min_cell ensure_min_cell_spec get_available_employees
  simp only []
  by_cases h1 : (st.schedule d s).length < MIN_EMPLOYEES_PER_SHIFT
  · have hmax : max (0 : Int)
          ((MIN_EMPLOYEES_PER_SHIFT : Int) - ((st.schedule d s).length : Int))
        = (MIN_EMPLOYEES_PER_SHIFT : Int) - ((st.schedule d s).length : Int) :=
      max_eq_right (by omega)
    have hIpos : (0 : Int) < max (0 : Int)
        ((MIN_EMPLOYEES_PER_SHIFT : Int) - ((st.schedule d s).length : Int)) := by
      rw [hmax]
      omega
    rw [if_pos h1, if_pos hIpos]
    have htoNat : (max (0 : Int)
          ((MIN_EMPLOYEES_PER_SHIFT : Int) - ((st.schedule d s).length : Int))).toNat
        = MIN_EMPLOYEES_PER_SHIFT - (st.schedule d s).length := by
      rw [hmax]
      omega
    rw [htoNat]
    rw [← fill_eq_walk d s (MIN_EMPLOYEES_PER_SHIFT - (st.schedule d s).length)
      (shuffle ((List.range st.employees.length).filter (fun i =>
        match st.employees[i]? with
        | some e => e.can_work_day d
        | none => false))) st 0 (Nat.zero_le _)]
    obtain ⟨ha, hb, hc⟩ := fill_loop_props d s
      (MIN_EMPLOYEES_PER_SHIFT - (st.schedule d s).length)
      (shuffle ((List.range st.employees.length).filter (fun i =>
        match st.employees[i]? with
        | some e => e.can_work_day d
        | none => false))) st 0 (Nat.zero_le _)
    by_cases h3 : (fill_loop d s (MIN_EMPLOYEES_PER_SHIFT - (st.schedule d s).length) st
        (shuffle ((List.range st.employees.length).filter (fun i =>
          match st.employees[i]? with
          | some e => e.can_work_day d
          | none => false))) 0).2 < MIN_EMPLOYEES_PER_SHIFT - (st.schedule d s).length
    · rw [if_pos h3, if_pos (by omega)]
      have hpayload : MIN_EMPLOYEES_PER_SHIFT -
          ((fill_loop d s (MIN_EMPLOYEES_PER_SHIFT - (st.schedule d s).length) st
            (shuffle ((List.range st.employees.length).filter (fun i =>
              match st.employees[i]? with
              | some e => e.can_work_day d
              | none => false))) 0).1.schedule d s).length
          = MIN_EMPLOYEES_PER_SHIFT - (st.schedule d s).length -
            (fill_loop d s (MIN_EMPLOYEES_PER_SHIFT - (st.schedule d s).length) st
              (shuffle ((List.range st.employees.length).filter (fun i =>
                match st.employees[i]? with
                | some e => e.can_work_day d
                | none => false))) 0).2 := by
        omega
      rw [hpayload]
    · rw [if_neg h3, if_neg (by omega)]
  · have hle : max (0 : Int)
          ((MIN_EMPLOYEES_PER_SHIFT : Int) - ((st.schedule d s).length : Int))
        = 0 :=
      max_eq_left (by omega)
    rw [if_neg h1, if_neg (by rw [hle]; omega)]

/-- C7: Phase 3's per-cell step is exactly the specification's
description: shortfall computed as `max(0, 2 − cell size)`, acted on only
when positive; the candidate list is exactly the positions of employees
for whom `can_work_day` holds; one injected permutation is applied; the
permuted sequence is walked under the re-evaluated check until the
shortfall is filled or the candidates run out; and an understaffed
diagnostic carrying the day, the shift and the remaining shortfall is
emitted when the cell is still below minimum, with nothing further done
for the cell. -/
theorem claim_C7_backfill_matches_spec (shuffle : List Nat → List Nat)
    (st : St) (d : Int) (s : Shift) :
    ensure_min_cell shuffle st d s = ensure_min_cell_spec shuffle st d s ∧
    (∀ i : Nat, i ∈ get_available_employees st d ↔
      ∃ e, st.employees[i]? = some e ∧ e.can_work_day d = true) := by
  refine ⟨ensure_min_cell_eq shuffle st d s, fun i => ?_⟩
  unfold get_available_employees
  constructor
  · intro h
    obtain ⟨hr, hp⟩ := List.mem_filter.mp h
    cases hx : st.employees[i]? with
    | none => rw [hx] at hp; cases hp
    | some e =>
      refine ⟨e, rfl, ?_⟩
      rw [hx] at hp
      exact hp
  · rintro ⟨e, hx, hcw⟩
    refine List.mem_filter.mpr ⟨List.mem_range.mpr (List.getElem?_eq_some.mp hx).1, ?_⟩
    show (match st.employees[i]? with
      | some e => e.can_work_day d
      | none => false) = true
    rw [hx]
    exact hcw


theorem find?_skip_blocked {α : Type} [DecidableEq α] (p : α → Bool) (a : α)
    (h : p a = false) :
    ∀ l : List α, l.find? p = (l.filter (fun x => decide (x ≠ a))).find? p := by
  intro l
  induction l with
  | nil => rfl
  | cons x t ih =>
    rw [List.filter_cons]
    by_cases hx : x = a
    · subst hx
      have hd : (decide (x ≠ x) : Bool) = false := by simp
      rw [hd]
      simp only [Bool.false_eq_true, if_false, List.find?_cons, h]
      exact ih
    · have hd : (decide (x ≠ a) : Bool) = true := by simp [hx]
      rw [if_pos hd]
      simp only [List.find?_cons]
      cases hpx : p x
      · exact ih
      · rfl

theorem find?_band_filter (l : List Shift) (q p : Shift → Bool) :
    l.find? (fun x => q x && p x) = (l.filter q).find? p := by
  rw [List.find?_filter]
  congr 1
  funext a
  by_cases hq : q a = true
  · by_cases hp : p a = true <;> simp [hq, hp]
  · simp [hq]

theorem resolve_days_spec (st : St) (i : Nat) (pd : Int) (ps : Shift) :
    ∀ ds : List Int,
      resolve_days st i pd ps ds =
        Option.map (fun c => assign st i c.1 c.2)
          (((ds.filter (fun d => decide (d ≠ pd))).flatMap
            (fun d => (d, ps) :: (shifts.filter (fun sh => decide (sh ≠ ps))).map
              (fun sh => (d, sh)))).find? (fun c => can_assign st i c.1 c.2)) := by
  intro ds
  induction ds with
  | nil => rfl
  | cons od rest ih =>
    unfold resolve_days
    rw [List.filter_cons]
    by_cases h1 : od = pd
    · rw [if_pos h1]
      have hd : (decide (od ≠ pd) : Bool) = false := by simp [h1]
      rw [hd]
      simp only [Bool.false_eq_true, if_false]
      exact ih
    · rw [if_neg h1]
      have hd : (decide (od ≠ pd) : Bool) = true := by simp [h1]
      rw [if_pos hd, List.flatMap_cons, List.cons_append, List.find?_cons]
      by_cases h2 : can_assign st i od ps = true
      · rw [if_pos h2]
        simp only [h2]
        rfl
      · have h2' : can_assign st i od ps = false := by simpa using h2
        rw [if_neg h2]
        simp only [h2']
        rw [List.find?_append, List.find?_map]
        have hcomp : ((fun c : Int × Shift => can_assign st i c.1 c.2) ∘
            (fun sh => (od, sh))) = fun sh => can_assign st i od sh :=
          funext fun sh => rfl
        rw [hcomp]
        have hsk : shifts.find? (fun sh => can_assign st i od sh)
            = (shifts.filter (fun sh => decide (sh ≠ ps))).find?
                (fun sh => can_assign st i od sh) :=
          find?_skip_blocked _ ps h2' shifts
        cases hf : (shifts.filter (fun sh => decide (sh ≠ ps))).find?
            (fun sh => can_assign st i od sh) with
        | some sh =>
          rw [hsk, hf]
          rfl
        | none =>
          rw [hsk, hf]
          exact ih

/-- C5: when a stated preference fails the direct check, conflict
resolution assigns exactly the first (day, shift) cell passing the
capacity/availability check in the spec's fixed search order — the other
shift kinds on the same day in enumeration order, then each other day
trying the preferred shift first and the other shift kinds in
enumeration order — and emits the warning when no cell passes.  In
particular (Scenario C), a person preferring Evening on a full Tuesday
Evening with Tuesday Morning and Afternoon open lands on Tuesday
Morning. -/
theorem claim_C5_conflict_search_order (st : St) (i : Nat) (pd : Int) (ps : Shift) :
    (resolve_conflict st i pd ps =
      match (spec_search_order pd ps).find? (fun c => can_assign st i c.1 c.2) with
      | some c => (assign st i c.1 c.2, [])
      | none => (st, match st.employees[i]? with
          | some e => [Diag.unresolved e.name]
          | none => [])) ∧
    (resolve_conflict eveningFullSt 0 1 Shift.EVENING).1.schedule 1 Shift.MORNING
      = ["Pat"] ∧
    Option.map Employee.schedule
        ((resolve_conflict eveningFullSt 0 1 Shift.EVENING).1.employees[0]?) =
      some [((1 : Int), Shift.MORNING)] := by
  refine ⟨?_, by decide, by decide⟩
  unfold resolve_conflict spec_search_order
  rw [List.find?_append, List.find?_map]
  have hcomp : ((fun c : Int × Shift => can_assign st i c.1 c.2) ∘
      (fun sh => (pd, sh))) = fun sh => can_assign st i pd sh :=
    funext fun sh => rfl
  rw [hcomp]
  have hband : shifts.find? (fun sh => decide (sh ≠ ps) && can_assign st i pd sh)
      = (shifts.filter (fun sh => decide (sh ≠ ps))).find?
          (fun sh => can_assign st i pd sh) :=
    find?_band_filter shifts _ _
  cases hf1 : (shifts.filter (fun sh => decide (sh ≠ ps))).find?
      (fun sh => can_assign st i pd sh) with
  | some sh =>
    rw [hband, hf1]
    rfl
  | none =>
    rw [hband, hf1]
    rw [resolve_days_spec st i pd ps days]
    cases hf2 : ((days.filter (fun d => decide (d ≠ pd))).flatMap
        (fun d => (d, ps) :: (shifts.filter (fun sh => decide (sh ≠ ps))).map
          (fun sh => (d, sh)))).find? (fun c => can_assign st i c.1 c.2) with
    | some c => rfl
    | none => rfl

end Scheduler
